import Mathlib

/-!
# Verification of `parse-notes` (src/code.go)

A shallow embedding of the Go program that builds a markdown index of a
directory tree of note files.  Strings are modelled by Lean `String`
(a wrapper around `List Char`); Go's byte-level string operations
(`strings.HasSuffix`, `strings.HasPrefix`, slicing) are modelled on the
character list.  The filesystem is modelled by the inductive `FSNode`;
a directory listing that `ioutil.ReadDir` would fail on carries
`readable = false`.  File identity (what `os.SameFile` compares, i.e.
device+inode) is modelled by a `Nat` tag on each regular file, and the
`os.FileInfo` obtained from `os.Stat` of the output file by an
`Option Nat` (`none` when `os.Stat` returned an error, in which case Go's
`os.SameFile(nil, f)` is `false`).

Mutation in the Go code is modelled by explicit state passing:
`__traverseDir` mutates its `*Entry` argument, so the embedding
`traverseChildren` takes the current `Entry` and returns the updated one
(`none` models the `panic` on a `ReadDir` error); `Entry.dump` sorts the
note slice in place through the shared backing array, so its embedding
returns the rendered text together with the post-render tree.
-/

/-- Model of Go `strings.HasSuffix s suffix` (byte comparison, modelled on
the character list). -/
def hasSuffix (s suffix : String) : Bool :=
  suffix.data.isSuffixOf s.data

/-- Model of Go `strings.HasPrefix s pre` (used at src/code.go:124 to
detect hidden directory names). -/
def hasPre (s pre : String) : Bool :=
  pre.data.isPrefixOf s.data

/-- Model of Go `strings.Repeat (String.singleton c) n`: `n` copies of the
character `c` (the program only repeats the one-character strings `" "`
and `"#"`, src/code.go:49 and :87). -/
def strRepeat (n : Nat) (c : Char) : String :=
  String.mk (List.replicate n c)

/-- The path-join used for both link targets and sub-topic path prefixes
(src/code.go:57-59 and :79-82): `url := name; if path != "" { url = path
+ "/" + url }`. -/
def goJoin (path name : String) : String :=
  if path = "" then name else path ++ "/" ++ name

/-- Model of the Go slice expression `s[:len(s)-len(ext)]`
(src/code.go:62).  In Go this panics when `len(ext) > len(s)`; the
truncating `Nat` subtraction here agrees with Go whenever
`len(ext) ≤ len(s)`, which the build-time suffix filter guarantees for
every note name (claim C9). -/
def stripExt (s ext : String) : String :=
  String.mk (s.data.take (s.data.length - ext.data.length))

/-- Go's integer formatting zero-pads to the layout width
(`time.Format` uses `appendInt(b, v, w)`): the decimal digits of `n`,
left-padded with `'0'` to width `w`. -/
def padNat (w : Nat) (n : Nat) : String :=
  String.mk (List.replicate (w - (Nat.repr n).length) '0') ++ Nat.repr n

/-- The three-letter month abbreviations used by the `"Jan"` component of
a Go time layout. -/
def monthNames : List String :=
  ["Jan", "Feb", "Mar", "Apr", "May", "Jun",
   "Jul", "Aug", "Sep", "Oct", "Nov", "Dec"]

/-- A `time.Month` of a valid `time.Time` is always in `1..12`; it is
modelled as a `Fin 12` index into `monthNames`. -/
def monthAbbr (m : Fin 12) : String :=
  monthNames.getD m.val "Jan"

/-- The date components of a `time.Time` that the layout `"02 Jan 2006"`
reads: day of month, month and year. -/
structure Date where
  day : Nat
  month : Fin 12
  year : Nat
deriving DecidableEq, Repr

/-- Model of `note.timestamp.Format("02 Jan 2006")` (src/code.go:55):
zero-padded two-digit day, three-letter month abbreviation, zero-padded
four-digit year. -/
def formatDate (d : Date) : String :=
  padNat 2 d.day ++ " " ++ monthAbbr d.month ++ " " ++ padNat 4 d.year

/-- `type Note struct { name string; timestamp time.Time }`
(src/code.go:17-20). -/
structure Note where
  name : String
  timestamp : Date
deriving DecidableEq, Repr

/-- Go's `<` on `string` compares byte by byte, lexicographically;
modelled on the character lists. -/
def strLtB : List Char → List Char → Bool
  | [], [] => false
  | [], _ :: _ => true
  | _ :: _, [] => false
  | c :: cs, d :: ds => if c < d then true else if d < c then false else strLtB cs ds

/-- Go's `<=` on `string`: `a <= b` iff `¬ (b < a)`. -/
def strLeB (a b : List Char) : Bool :=
  !(strLtB b a)

theorem strLtB_asymm : ∀ a b, strLtB a b = true → strLtB b a = true → False
  | [], [], h, _ => by simp [strLtB] at h
  | [], _ :: _, _, h' => by simp [strLtB] at h'
  | _ :: _, [], h, _ => by simp [strLtB] at h
  | c :: cs, d :: ds, h, h' => by
    simp only [strLtB] at h h'
    by_cases h1 : c < d
    · have : ¬ d < c := lt_asymm h1
      simp [h1, this] at h'
    · by_cases h2 : d < c
      · simp [h1, h2] at h
      · simp [h1, h2] at h h'
        exact strLtB_asymm cs ds h h'

theorem strLtB_trans : ∀ a b c, strLtB a b = true → strLtB b c = true → strLtB a c = true
  | [], _, _ :: _, _, _ => by simp [strLtB]
  | [], _ :: _, [], _, h' => by simp [strLtB] at h'
  | [], [], _, h, _ => by simp [strLtB] at h
  | _ :: _, [], _, h, _ => by simp [strLtB] at h
  | _ :: _, _ :: _, [], _, h' => by simp [strLtB] at h'
  | a :: as, b :: bs, c :: cs, h, h' => by
    simp only [strLtB] at h h' ⊢
    by_cases h1 : a < b
    · by_cases h2 : b < c
      · simp [lt_trans h1 h2]
      · by_cases h3 : c < b
        · simp [h2, h3] at h'
        · have hbc : b = c := le_antisymm (not_lt.mp h3) (not_lt.mp h2)
          subst hbc
          simp [h1]
    · by_cases h2 : b < a
      · simp [h1, h2] at h
      · have hab : a = b := le_antisymm (not_lt.mp h2) (not_lt.mp h1)
        subst hab
        by_cases h3 : a < c
        · simp [h3]
        · by_cases h4 : c < a
          · simp [h3, h4] at h'
          · simp [h1, h3, h4] at h h' ⊢
            exact strLtB_trans as bs cs h h'

theorem strLtB_eq_of_not : ∀ a b, strLtB a b = false → strLtB b a = false → a = b
  | [], [], _, _ => rfl
  | [], _ :: _, h, _ => by simp [strLtB] at h
  | _ :: _, [], _, h' => by simp [strLtB] at h'
  | c :: cs, d :: ds, h, h' => by
    simp only [strLtB] at h h'
    by_cases h1 : c < d
    · simp [h1] at h
    · by_cases h2 : d < c
      · simp [h1, h2] at h'
      · have hcd : c = d := le_antisymm (not_lt.mp h2) (not_lt.mp h1)
        subst hcd
        simp [h1] at h h'
        rw [strLtB_eq_of_not cs ds h h']

theorem strLeB_total : ∀ a b, strLeB a b = true ∨ strLeB b a = true := by
  intro a b
  by_cases h : strLtB b a = true
  · right
    by_cases h' : strLtB a b = true
    · exact absurd (strLtB_asymm _ _ h h') id
    · simp [strLeB, h']
  · left
    simp [strLeB, h]

theorem strLeB_trans : ∀ a b c, strLeB a b = true → strLeB b c = true → strLeB a c = true := by
  intro a b c h h'
  simp only [strLeB, Bool.not_eq_true'] at h h' ⊢
  by_contra hca
  rw [Bool.not_eq_false] at hca
  by_cases hab : strLtB a b = true
  · exact absurd (strLtB_trans c a b hca hab) (by simp [h'])
  · have hab' : a = b := strLtB_eq_of_not a b (by rwa [Bool.not_eq_true] at hab) h
    subst hab'
    exact absurd hca (by simp [h'])

theorem strLeB_antisymm : ∀ a b, strLeB a b = true → strLeB b a = true → a = b := by
  intro a b h h'
  simp only [strLeB, Bool.not_eq_true'] at h h'
  exact strLtB_eq_of_not a b h' h

/-- `Notes.Less` (src/code.go:28-31) is `notes[i].name < notes[j].name`;
`sort.Stable` produces the unique stable order with no later element
`Less` than an earlier one, i.e. the stable sort by this relation. -/
def noteLe (a b : Note) : Prop :=
  strLeB a.name.data b.name.data = true

instance : DecidableRel noteLe :=
  fun a b => instDecidableEqBool (strLeB a.name.data b.name.data) true

instance : IsTotal Note noteLe :=
  ⟨fun a b => strLeB_total a.name.data b.name.data⟩

instance : IsTrans Note noteLe :=
  ⟨fun _ b _ h h' => strLeB_trans _ b.name.data _ h h'⟩

/-- The stable in-place sort `sort.Stable(notes)` (src/code.go:52).  A
stable sort's output is uniquely determined (keys ascending, ties in
input order), so the stable `List.insertionSort` is the model of Go's
stable sort. -/
def sortNotes (notes : List Note) : List Note :=
  notes.insertionSort noteLe

/-- Ordering of key-value pairs by their string key, the order in which
src/code.go:70-78 visits a sub-topic map. -/
def fstLe {β : Type} (a b : String × β) : Prop :=
  strLeB a.1.data b.1.data = true

instance {β : Type} : DecidableRel (fstLe (β := β)) :=
  fun a b => instDecidableEqBool (strLeB a.1.data b.1.data) true

instance {β : Type} : IsTotal (String × β) fstLe :=
  ⟨fun a b => strLeB_total a.1.data b.1.data⟩

instance {β : Type} : IsTrans (String × β) fstLe :=
  ⟨fun _ b _ h h' => strLeB_trans _ b.1.data _ h h'⟩

/-- `type Entry struct { notes Notes; subTopics map[Topic]*Entry }`
(src/code.go:37-40).  The Go map from topic name to child entry is
modelled as an association list with unique keys; the list order is an
artifact of the model (Go maps are unordered) and is only ever consumed
after sorting by key, mirroring src/code.go:70-76. -/
inductive Entry : Type where
  | mk : List Note → List (String × Entry) → Entry
deriving Repr

/-- The `notes` field of an `Entry`. -/
def Entry.notes : Entry → List Note
  | .mk ns _ => ns

/-- The `subTopics` field of an `Entry`. -/
def Entry.subTopics : Entry → List (String × Entry)
  | .mk _ st => st

/-- `blankEntry()` (src/code.go:43-45). -/
def blankEntry : Entry :=
  .mk [] []

/-- Go map read `entry.subTopics[k]` together with the `ok` flag
(src/code.go:127). -/
def lookupTopic : List (String × Entry) → String → Option Entry
  | [], _ => none
  | (k', e) :: rest, k => if k' = k then some e else lookupTopic rest k

/-- Go map write `entry.subTopics[k] = v`: replace the binding of an
existing key, otherwise add a new binding. -/
def setTopic : List (String × Entry) → String → Entry → List (String × Entry)
  | [], k, v => [(k, v)]
  | (k', e) :: rest, k, v =>
    if k' = k then (k, v) :: rest else (k', e) :: setTopic rest k v

/-- src/code.go:126-131: `_, test := entry.subTopics[subTopic]; if test
== false { subEntry := blankEntry(); entry.subTopics[subTopic] =
&subEntry }` — make sure a binding for `k` exists, inserting a blank
entry on first encounter and reusing the existing node otherwise. -/
def ensureTopic (subs : List (String × Entry)) (k : String) : List (String × Entry) :=
  match lookupTopic subs k with
  | none => setTopic subs k blankEntry
  | some _ => subs

/-- Sorting the sub-topic pairs by key models the loop at
src/code.go:70-76, which copies the map's keys into a slice, sorts them
with `sort.Strings`, and looks each key back up: since a Go map's keys
are unique, iterating the key-sorted pairs visits the same
`(key, child)` pairs in the same order. -/
def sortTopicPairs (subs : List (String × Entry)) : List (String × Entry) :=
  subs.insertionSort fstLe

/-- One line of the note loop body (src/code.go:54-66): indentation,
`- [`, display name with the extension stripped, `](`, the joined link
target, `) [`, the formatted date, `]`, newline. -/
def noteLine (indentStr path fileExt : String) (note : Note) : String :=
  indentStr ++ "- [" ++ stripExt note.name fileExt ++ "](" ++
    goJoin path note.name ++ ") [" ++ formatDate note.timestamp ++ "]" ++ "\n"

mutual

/-- `func (entry Entry) dump(path string, indent int, fileExt string) string`
(src/code.go:47-97).  The Go `result += piece` loops are modelled as the
concatenation of the pieces in loop order.  Because `sort.Stable(notes)`
at src/code.go:52 permutes the backing array shared with the caller's
tree, the embedding returns the rendered text together with the
post-render entry: notes stably sorted, and each sub-topic's child
replaced by its own post-render state (the map itself, here the
association order, is unchanged). -/
def Entry.dump : Entry → String → Nat → String → String × Entry
  | .mk notes subs, path, indent, fileExt =>
    let indentStr := strRepeat indent ' '
    let sorted := sortNotes notes
    let noteText := String.join (sorted.map (noteLine indentStr path fileExt))
    -- The Go loop visits the keys in sorted order and renders each
    -- child; one child's rendering depends only on its own key and
    -- entry, so rendering every child first (`dumpSubs`, in map order)
    -- and emitting the key-sorted `(key, result)` pairs produces the
    -- same text (`Entry.dump_subText_eq` below makes this precise).
    let rendered := dumpSubs subs path indent fileExt
    let subText := String.join ((rendered.insertionSort fstLe).map
      (fun kr =>
        "\n" ++ indentStr ++ strRepeat indent '#' ++ " " ++ kr.1 ++ "\n" ++ kr.2.1))
    (noteText ++ subText, .mk sorted (rendered.map (fun kr => (kr.1, kr.2.2))))

/-- The recursive renderings of the children of one entry, keyed and in
map order: `(key, (rendered text, post-render child))`. -/
def dumpSubs : List (String × Entry) → String → Nat → String → List (String × (String × Entry))
  | [], _, _, _ => []
  | (k, sub) :: rest, path, indent, fileExt =>
    (k, Entry.dump sub (goJoin path k) (indent + 1) fileExt) ::
      dumpSubs rest path indent fileExt

end

/-- `func (entry Entry) Dump(fileExt string) string` (src/code.go:99-104):
the title line followed by the recursive dump with empty path prefix and
starting depth 2. -/
def Entry.Dump (entry : Entry) (fileExt : String) : String × Entry :=
  let r := entry.dump "" 2 fileExt
  ("# Notes\n" ++ r.1, r.2)

/-- A node of the scanned filesystem.  `file name ident mtime` is a
regular file: `name` is `file.Name()`, `ident` models the resolved file
identity (device+inode) that `os.SameFile` compares, `mtime` is
`file.ModTime()`.  `dir name readable children` is a directory;
`readable = false` models a directory on which `ioutil.ReadDir` returns
an error. -/
inductive FSNode : Type where
  | file (name : String) (ident : Nat) (mtime : Date)
  | dir (name : String) (readable : Bool) (children : List FSNode)
deriving Repr

/-- `os.SameFile(outInfo, file)` (src/code.go:139): `outInfo` is `nil`
(`none`) when `os.Stat` of the output file failed (src/code.go:169-172),
and `os.SameFile` with a `nil` argument is `false`; otherwise the two
resolved identities are compared. -/
def sameFile (outInfo : Option Nat) (ident : Nat) : Bool :=
  match outInfo with
  | none => false
  | some o => o == ident

mutual

/-- The loop body of `__traverseDir` (src/code.go:109-146) over the
listed children of one directory, threading the mutated `*Entry`.
`none` models the `panic(err)` at src/code.go:114: a nested `ReadDir`
failure (a non-hidden subdirectory with `readable = false`) aborts the
whole traversal.  A hidden directory (name starting with `"."`,
src/code.go:124) is skipped without being listed or descended into.  A
regular file becomes a note iff its name has the `fileExt` suffix
(src/code.go:137) and it is not the output file (src/code.go:139). -/
def traverseChildren (fileExt : String) (outInfo : Option Nat) :
    List FSNode → Entry → Option Entry
  | [], entry => some entry
  | child :: rest, entry =>
    match traverseNode fileExt outInfo child entry with
    | none => none
    | some entry' => traverseChildren fileExt outInfo rest entry'

/-- One iteration of the loop at src/code.go:117-145, updating the
current `*Entry` (`none` propagates a nested `panic`). -/
def traverseNode (fileExt : String) (outInfo : Option Nat) :
    FSNode → Entry → Option Entry
  | .file name ident mtime, entry =>
    -- src/code.go:137-144
    if hasSuffix name fileExt && !sameFile outInfo ident then
      some (Entry.mk (entry.notes ++ [⟨name, mtime⟩]) entry.subTopics)
    else some entry
  | .dir name r cs, entry =>
    -- src/code.go:122-136
    if hasPre name "." then some entry
    else
      -- `subEntry := entry.subTopics[subTopic]` — present after `ensureTopic`.
      (if r then
          traverseChildren fileExt outInfo cs
            ((lookupTopic (ensureTopic entry.subTopics name) name).getD blankEntry)
        else none).map
        (fun sub' => Entry.mk entry.notes (setTopic (ensureTopic entry.subTopics name) name sub'))

end

/-- `traverseDir` (src/code.go:149-154) applied to the root directory's
listing: start from `blankEntry` and run `__traverseDir`.  The root's
own `ReadDir` failure (`readable = false`) is the panic at
src/code.go:114. -/
def traverseDir (fileExt : String) (outInfo : Option Nat)
    (readable : Bool) (children : List FSNode) : Option Entry :=
  if readable then traverseChildren fileExt outInfo children blankEntry else none

/-- The effect of `main` (src/code.go:156-178) on the output file's
content: `outInfo` is the result of `os.Stat(*outputFile)` (`none` on
error), `oldContent` is the output file's prior content.  A `panic`
inside the traversal terminates the process before the single
`ioutil.WriteFile` call at src/code.go:177, leaving the output file
untouched; otherwise the rendered dump overwrites it. -/
def mainRun (readable : Bool) (children : List FSNode)
    (fileExt : String) (outInfo : Option Nat) (oldContent : String) : String :=
  match traverseDir fileExt outInfo readable children with
  | none => oldContent
  | some rootEntry => (rootEntry.Dump fileExt).1

mutual

/-- Whether processing one listed child will avoid the `panic`: files
always do; a directory must be hidden (skipped) or readable with all its
reachable sub-listings fine. -/
def nodeOk : FSNode → Bool
  | .file _ _ _ => true
  | .dir n r cs => hasPre n "." || (r && listingOk cs)

/-- Whether every directory listing that the traversal will attempt
succeeds: non-hidden directories must be readable, recursively.  Hidden
directories are never listed, so their readability is irrelevant. -/
def listingOk : List FSNode → Bool
  | [] => true
  | n :: rest => nodeOk n && listingOk rest

end

mutual

/-- All notes of an entry and its descendants, as link targets relative
to the accumulated prefix `pre` — the set of notes the renderer will
emit, keyed by the link target it will print for them. -/
def Entry.collect (pre : String) : Entry → List String
  | .mk notes subs => notes.map (fun nt => goJoin pre nt.name) ++ collectSubs pre subs

/-- `Entry.collect` over an association list of sub-topics. -/
def collectSubs (pre : String) : List (String × Entry) → List String
  | [] => []
  | (k, e) :: rest => e.collect (goJoin pre k) ++ collectSubs pre rest

end

mutual

/-- All `Note` records stored anywhere in an entry's tree. -/
def Entry.allNotes : Entry → List Note
  | .mk notes subs => notes ++ allNotesSubs subs

/-- `Entry.allNotes` over an association list of sub-topics. -/
def allNotesSubs : List (String × Entry) → List Note
  | [] => []
  | (_, e) :: rest => e.allNotes ++ allNotesSubs rest

end

mutual

/-- No sub-topic key anywhere in the tree names a hidden directory. -/
def Entry.hiddenFree : Entry → Bool
  | .mk _ subs => hiddenFreeSubs subs

/-- `Entry.hiddenFree` over an association list of sub-topics. -/
def hiddenFreeSubs : List (String × Entry) → Bool
  | [] => true
  | (k, e) :: rest => !hasPre k "." && e.hiddenFree && hiddenFreeSubs rest

end

/-- The sub-topic keys of one entry (the Go map's key set). -/
def Entry.topicKeys (e : Entry) : List String :=
  e.subTopics.map Prod.fst

mutual

/-- Modelled from the spec: the set of eligible note files of a directory
listing, as link targets relative to `pre` — regular files whose name
ends with the suffix filter and which are not the output file, found
outside hidden directories at any depth (spec §8, first property). -/
def specNotesNode (fileExt : String) (outInfo : Option Nat) (pre : String) :
    FSNode → List String
  | .file name ident _ =>
    if hasSuffix name fileExt && !sameFile outInfo ident then [goJoin pre name] else []
  | .dir name _ cs =>
    if hasPre name "." then [] else specNotesList fileExt outInfo (goJoin pre name) cs

/-- `specNotesNode` over a directory listing. -/
def specNotesList (fileExt : String) (outInfo : Option Nat) (pre : String) :
    List FSNode → List String
  | [] => []
  | n :: rest =>
    specNotesNode fileExt outInfo pre n ++ specNotesList fileExt outInfo pre rest

end

mutual

/-- Modelled from the spec: like `specNotesList`, but with no output-file
exclusion at all — every suffix-matching regular file outside hidden
directories (the expected note set when `os.Stat` of the output file
failed, claim C10). -/
def specAllNode (fileExt : String) (pre : String) : FSNode → List String
  | .file name _ _ =>
    if hasSuffix name fileExt then [goJoin pre name] else []
  | .dir name _ cs =>
    if hasPre name "." then [] else specAllList fileExt (goJoin pre name) cs

/-- `specAllNode` over a directory listing. -/
def specAllList (fileExt : String) (pre : String) : List FSNode → List String
  | [] => []
  | n :: rest => specAllNode fileExt pre n ++ specAllList fileExt pre rest

end

/-- The note produced by one listed child, if any: the content of the
`else if` branch at src/code.go:137-144.  Directories produce no note at
their own level. -/
def eligibleNote (fileExt : String) (outInfo : Option Nat) : FSNode → Option Note
  | .file name ident mtime =>
    if hasSuffix name fileExt && !sameFile outInfo ident then some ⟨name, mtime⟩ else none
  | .dir _ _ _ => none

mutual

/-- The tree with every `notes` list stably sorted by name and nothing
else changed — the state `Entry.dump` leaves behind (claim C8). -/
def Entry.deepSortNotes : Entry → Entry
  | .mk notes subs => .mk (sortNotes notes) (deepSortNotesSubs subs)

/-- `Entry.deepSortNotes` over an association list of sub-topics. -/
def deepSortNotesSubs : List (String × Entry) → List (String × Entry)
  | [] => []
  | (k, e) :: rest => (k, e.deepSortNotes) :: deepSortNotesSubs rest

end

/-! ## Basic lemmas about the embedded operations -/

@[simp]
theorem Entry.notes_mk (ns : List Note) (st : List (String × Entry)) :
    (Entry.mk ns st).notes = ns := rfl

@[simp]
theorem Entry.subTopics_mk (ns : List Note) (st : List (String × Entry)) :
    (Entry.mk ns st).subTopics = st := rfl

theorem Entry.eta : ∀ e : Entry, Entry.mk e.notes e.subTopics = e
  | .mk _ _ => rfl

theorem setTopic_of_lookup_none :
    ∀ (subs : List (String × Entry)) (k : String) (v : Entry),
      lookupTopic subs k = none → setTopic subs k v = subs ++ [(k, v)]
  | [], _, _, _ => rfl
  | (k', e) :: rest, k, v, h => by
    by_cases hk : k' = k
    · simp [lookupTopic, hk] at h
    · simp only [setTopic, if_neg hk, List.cons_append, List.cons.injEq, true_and]
      apply setTopic_of_lookup_none
      simpa [lookupTopic, hk] using h

theorem lookupTopic_append_of_none :
    ∀ (subs : List (String × Entry)) (k : String) (v : Entry),
      lookupTopic subs k = none → lookupTopic (subs ++ [(k, v)]) k = some v
  | [], k, _, _ => by simp [lookupTopic]
  | (k', e) :: rest, k, v, h => by
    by_cases hk : k' = k
    · simp [lookupTopic, hk] at h
    · simp only [List.cons_append, lookupTopic, if_neg hk]
      apply lookupTopic_append_of_none
      simpa [lookupTopic, hk] using h

theorem collectSubs_append (pre : String) :
    ∀ l₁ l₂ : List (String × Entry),
      collectSubs pre (l₁ ++ l₂) = collectSubs pre l₁ ++ collectSubs pre l₂
  | [], _ => by simp [collectSubs]
  | (k, e) :: rest, l₂ => by
    simp [collectSubs, collectSubs_append pre rest l₂]

theorem collectSubs_setTopic_of_lookup (pre : String) :
    ∀ (subs : List (String × Entry)) (k : String) (old v : Entry),
      lookupTopic subs k = some old →
      (↑(collectSubs pre (setTopic subs k v)) + ↑(old.collect (goJoin pre k)) :
          Multiset String) =
        ↑(collectSubs pre subs) + ↑(v.collect (goJoin pre k))
  | [], _, _, _, h => by simp [lookupTopic] at h
  | (k', e) :: rest, k, old, v, h => by
    by_cases hk : k' = k
    · subst hk
      have h' : e = old := by simpa [lookupTopic] using h
      subst h'
      simp only [setTopic, if_pos rfl, collectSubs, ← Multiset.coe_add]
      abel
    · have h' : lookupTopic rest k = some old := by simpa [lookupTopic, hk] using h
      simp only [setTopic, if_neg hk, collectSubs, ← Multiset.coe_add]
      have ih := collectSubs_setTopic_of_lookup pre rest k old v h'
      simp only [← Multiset.coe_add] at ih
      rw [add_assoc, add_assoc, ih]

@[simp]
theorem blankEntry_collect (pre : String) : blankEntry.collect pre = [] := rfl

@[simp]
theorem collect_mk (pre : String) (ns : List Note) (st : List (String × Entry)) :
    (Entry.mk ns st).collect pre =
      ns.map (fun nt => goJoin pre nt.name) ++ collectSubs pre st := by
  simp [Entry.collect]

theorem lookupTopic_ensureTopic (subs : List (String × Entry)) (k : String) :
    lookupTopic (ensureTopic subs k) k = some ((lookupTopic subs k).getD blankEntry) := by
  unfold ensureTopic
  cases h : lookupTopic subs k with
  | none =>
    rw [setTopic_of_lookup_none subs k blankEntry h]
    simp [lookupTopic_append_of_none subs k blankEntry h]
  | some v => simp [h]

/-! ## What traversal does to the `notes` of the current level

The `notes` slice of the entry a traversal step updates grows by exactly
the eligible files of the listing, in listing order; sub-directory
processing never touches the current level's notes. -/

theorem traverseNode_notes (x : String) (o : Option Nat) :
    ∀ (n : FSNode) (e e' : Entry),
      traverseNode x o n e = some e' →
      e'.notes = e.notes ++ (eligibleNote x o n).toList
  | .file name ident mtime, e, e', h => by
    by_cases hc : (hasSuffix name x && !sameFile o ident) = true
    · simp only [traverseNode, if_pos hc, Option.some.injEq] at h
      subst h
      simp [eligibleNote, hc]
    · simp only [traverseNode, if_neg hc, Option.some.injEq] at h
      subst h
      simp only [Bool.not_eq_true] at hc
      simp [eligibleNote, hc]
  | .dir name r cs, e, e', h => by
    by_cases hh : hasPre name "." = true
    · simp only [traverseNode, if_pos hh, Option.some.injEq] at h
      subst h
      simp [eligibleNote]
    · simp only [traverseNode, if_neg hh] at h
      obtain ⟨sub', _, rfl⟩ := Option.map_eq_some'.mp h
      simp [eligibleNote]

theorem traverseChildren_notes (x : String) (o : Option Nat) :
    ∀ (cs : List FSNode) (e e' : Entry),
      traverseChildren x o cs e = some e' →
      e'.notes = e.notes ++ cs.filterMap (eligibleNote x o)
  | [], e, e', h => by
    simp only [traverseChildren, Option.some.injEq] at h
    subst h
    simp
  | child :: rest, e, e', h => by
    cases hn : traverseNode x o child e with
    | none => simp [traverseChildren, hn] at h
    | some e₁ =>
      simp only [traverseChildren, hn] at h
      have ih1 := traverseNode_notes x o child e e₁ hn
      have ih2 := traverseChildren_notes x o rest e₁ e' h
      rw [ih2, ih1, List.append_assoc]
      congr 1
      cases he : eligibleNote x o child <;> simp [List.filterMap_cons, he]

/-! ## When traversal succeeds: exactly when every reachable listing is
readable, independently of the entry state and the output-file info -/

mutual

theorem traverseNode_isSome (x : String) (o : Option Nat) :
    ∀ (n : FSNode) (e : Entry), (traverseNode x o n e).isSome = nodeOk n
  | .file name ident mtime, e => by
    by_cases hc : (hasSuffix name x && !sameFile o ident) = true <;>
      simp [traverseNode, nodeOk, hc]
  | .dir name r cs, e => by
    by_cases hh : hasPre name "." = true
    · simp [traverseNode, nodeOk, hh]
    · cases r with
      | false => simp [traverseNode, nodeOk, hh]
      | true =>
        have ih := traverseChildren_isSome x o cs
          ((lookupTopic (ensureTopic e.subTopics name) name).getD blankEntry)
        simpa [traverseNode, nodeOk, hh, Option.isSome_map] using ih

theorem traverseChildren_isSome (x : String) (o : Option Nat) :
    ∀ (cs : List FSNode) (e : Entry), (traverseChildren x o cs e).isSome = listingOk cs
  | [], e => by simp [traverseChildren, listingOk]
  | child :: rest, e => by
    cases hn : traverseNode x o child e with
    | none =>
      have ih := traverseNode_isSome x o child e
      rw [hn] at ih
      simp [traverseChildren, hn, listingOk, ← ih]
    | some e₁ =>
      have ih := traverseNode_isSome x o child e
      rw [hn] at ih
      have ih2 := traverseChildren_isSome x o rest e₁
      simp [traverseChildren, hn, listingOk, ← ih, ih2]

end

/-! ## Tree-shape invariants the traversal maintains -/

@[simp]
theorem Entry.hiddenFree_mk (ns : List Note) (st : List (String × Entry)) :
    (Entry.mk ns st).hiddenFree = hiddenFreeSubs st := by
  simp [Entry.hiddenFree]

@[simp]
theorem Entry.allNotes_mk (ns : List Note) (st : List (String × Entry)) :
    (Entry.mk ns st).allNotes = ns ++ allNotesSubs st := by
  simp [Entry.allNotes]

theorem hiddenFreeSubs_append :
    ∀ l₁ l₂ : List (String × Entry),
      hiddenFreeSubs (l₁ ++ l₂) = (hiddenFreeSubs l₁ && hiddenFreeSubs l₂)
  | [], l₂ => by simp [hiddenFreeSubs]
  | (k, e) :: rest, l₂ => by
    simp [hiddenFreeSubs, hiddenFreeSubs_append rest l₂, Bool.and_assoc]

theorem hiddenFreeSubs_setTopic :
    ∀ (subs : List (String × Entry)) (k : String) (v : Entry),
      hiddenFreeSubs subs = true → hasPre k "." = false → v.hiddenFree = true →
      hiddenFreeSubs (setTopic subs k v) = true
  | [], k, v, _, hk, hv => by simp [setTopic, hiddenFreeSubs, hk, hv]
  | (k', e) :: rest, k, v, hsubs, hk, hv => by
    simp only [hiddenFreeSubs, Bool.and_eq_true] at hsubs
    obtain ⟨⟨hk', he⟩, hrest⟩ := hsubs
    by_cases hkk : k' = k
    · subst hkk
      simp [setTopic, hiddenFreeSubs, hk, hv, hrest]
    · simp [setTopic, hkk, hiddenFreeSubs, hk', he,
        hiddenFreeSubs_setTopic rest k v hrest hk hv]

theorem hiddenFree_of_lookup :
    ∀ (subs : List (String × Entry)) (k : String) (v : Entry),
      hiddenFreeSubs subs = true → lookupTopic subs k = some v → v.hiddenFree = true
  | [], _, _, _, hl => by simp [lookupTopic] at hl
  | (k', e) :: rest, k, v, hsubs, hl => by
    simp only [hiddenFreeSubs, Bool.and_eq_true] at hsubs
    obtain ⟨⟨_, he⟩, hrest⟩ := hsubs
    by_cases hkk : k' = k
    · have : e = v := by simpa [lookupTopic, hkk] using hl
      exact this ▸ he
    · exact hiddenFree_of_lookup rest k v hrest (by simpa [lookupTopic, hkk] using hl)

mutual

theorem traverseNode_hiddenFree (x : String) (o : Option Nat) :
    ∀ (n : FSNode) (e e' : Entry),
      traverseNode x o n e = some e' → e.hiddenFree = true → e'.hiddenFree = true
  | .file name ident mtime, .mk ns st, e', h, he => by
    by_cases hc : (hasSuffix name x && !sameFile o ident) = true
    · simp only [traverseNode, Entry.notes_mk, Entry.subTopics_mk,
        if_pos hc, Option.some.injEq] at h
      subst h
      simpa using he
    · simp only [traverseNode, if_neg hc, Option.some.injEq] at h
      subst h
      exact he
  | .dir name r cs, .mk ns st, e', h, he => by
    by_cases hh : hasPre name "." = true
    · simp only [traverseNode, if_pos hh, Option.some.injEq] at h
      subst h
      exact he
    · cases r with
      | false => simp [traverseNode, hh] at h
      | true =>
        simp only [traverseNode, if_neg hh, if_true, Entry.notes_mk,
          Entry.subTopics_mk] at h
        obtain ⟨sub', hsub, rfl⟩ := Option.map_eq_some'.mp h
        simp only [Entry.hiddenFree_mk] at he ⊢
        have hm : hiddenFreeSubs (ensureTopic st name) = true := by
          unfold ensureTopic
          cases hl : lookupTopic st name with
          | none =>
            rw [setTopic_of_lookup_none st name blankEntry hl, hiddenFreeSubs_append]
            simp [he, hiddenFreeSubs, blankEntry, Entry.hiddenFree,
              Bool.not_eq_true', hh]
          | some v => exact he
        have hsubHF : ((lookupTopic (ensureTopic st name) name).getD
            blankEntry).hiddenFree = true := by
          rw [lookupTopic_ensureTopic st name]
          cases hl : lookupTopic st name with
          | none => simp [blankEntry, Entry.hiddenFree, hiddenFreeSubs]
          | some v =>
            simpa using hiddenFree_of_lookup st name v he hl
        have hsub' : sub'.hiddenFree = true :=
          traverseChildren_hiddenFree x o cs _ sub' hsub hsubHF
        exact hiddenFreeSubs_setTopic (ensureTopic st name) name sub' hm
          (by simpa [Bool.not_eq_true'] using hh) hsub'

theorem traverseChildren_hiddenFree (x : String) (o : Option Nat) :
    ∀ (cs : List FSNode) (e e' : Entry),
      traverseChildren x o cs e = some e' → e.hiddenFree = true → e'.hiddenFree = true
  | [], e, e', h, he => by
    simp only [traverseChildren, Option.some.injEq] at h
    subst h
    exact he
  | child :: rest, e, e', h, he => by
    cases hn : traverseNode x o child e with
    | none => simp [traverseChildren, hn] at h
    | some e₁ =>
      simp only [traverseChildren, hn] at h
      exact traverseChildren_hiddenFree x o rest e₁ e' h
        (traverseNode_hiddenFree x o child e e₁ hn he)

end

/-! ## Every note the traversal stores passes the suffix filter -/

theorem allNotesSubs_append :
    ∀ l₁ l₂ : List (String × Entry),
      allNotesSubs (l₁ ++ l₂) = allNotesSubs l₁ ++ allNotesSubs l₂
  | [], l₂ => by simp [allNotesSubs]
  | (k, e) :: rest, l₂ => by
    simp [allNotesSubs, allNotesSubs_append rest l₂]

theorem mem_allNotesSubs_setTopic :
    ∀ (subs : List (String × Entry)) (k : String) (v : Entry) (nt : Note),
      nt ∈ allNotesSubs (setTopic subs k v) → nt ∈ allNotesSubs subs ∨ nt ∈ v.allNotes
  | [], k, v, nt, h => by
    simp only [setTopic, allNotesSubs, List.append_nil] at h
    exact Or.inr h
  | (k', e) :: rest, k, v, nt, h => by
    by_cases hkk : k' = k
    · subst hkk
      simp only [setTopic, if_pos rfl, allNotesSubs, List.mem_append] at h
      rcases h with h | h
      · exact Or.inr h
      · exact Or.inl (by simp [allNotesSubs, h])
    · simp only [setTopic, if_neg hkk, allNotesSubs, List.mem_append] at h
      rcases h with h | h
      · exact Or.inl (by simp [allNotesSubs, h])
      · rcases mem_allNotesSubs_setTopic rest k v nt h with h' | h'
        · exact Or.inl (by simp [allNotesSubs, h'])
        · exact Or.inr h'

theorem mem_allNotesSubs_of_lookup :
    ∀ (subs : List (String × Entry)) (k : String) (v : Entry) (nt : Note),
      lookupTopic subs k = some v → nt ∈ v.allNotes → nt ∈ allNotesSubs subs
  | [], _, _, _, hl, _ => by simp [lookupTopic] at hl
  | (k', e) :: rest, k, v, nt, hl, hnt => by
    by_cases hkk : k' = k
    · have : e = v := by simpa [lookupTopic, hkk] using hl
      subst this
      simp [allNotesSubs, hnt]
    · have := mem_allNotesSubs_of_lookup rest k v nt
        (by simpa [lookupTopic, hkk] using hl) hnt
      simp [allNotesSubs, this]

mutual

theorem traverseNode_suffix (x : String) (o : Option Nat) :
    ∀ (n : FSNode) (e e' : Entry),
      traverseNode x o n e = some e' →
      (∀ nt ∈ e.allNotes, hasSuffix nt.name x = true) →
      ∀ nt ∈ e'.allNotes, hasSuffix nt.name x = true
  | .file name ident mtime, .mk ns st, e', h, he => by
    by_cases hc : (hasSuffix name x && !sameFile o ident) = true
    · simp only [traverseNode, Entry.notes_mk, Entry.subTopics_mk,
        if_pos hc, Option.some.injEq] at h
      subst h
      intro nt hnt
      simp only [Entry.allNotes_mk, List.append_assoc, List.mem_append,
        List.mem_singleton] at hnt
      rcases hnt with hnt | hnt | hnt
      · exact he nt (by simp [hnt])
      · subst hnt
        exact (Bool.and_eq_true _ _ |>.mp hc).1
      · exact he nt (by simp [hnt])
    · simp only [traverseNode, if_neg hc, Option.some.injEq] at h
      subst h
      exact he
  | .dir name r cs, .mk ns st, e', h, he => by
    by_cases hh : hasPre name "." = true
    · simp only [traverseNode, if_pos hh, Option.some.injEq] at h
      subst h
      exact he
    · cases r with
      | false => simp [traverseNode, hh] at h
      | true =>
        simp only [traverseNode, if_neg hh, if_true, Entry.notes_mk,
          Entry.subTopics_mk] at h
        obtain ⟨sub', hsub, rfl⟩ := Option.map_eq_some'.mp h
        have hsubInv : ∀ nt ∈ ((lookupTopic (ensureTopic st name) name).getD
            blankEntry).allNotes, hasSuffix nt.name x = true := by
          rw [lookupTopic_ensureTopic st name]
          cases hl : lookupTopic st name with
          | none => simp [blankEntry, Entry.allNotes, allNotesSubs]
          | some v =>
            intro nt hnt
            simp only [Option.getD_some] at hnt
            exact he nt (by
              simp only [Entry.allNotes_mk, List.mem_append]
              exact Or.inr (mem_allNotesSubs_of_lookup st name v nt hl hnt))
        have hsub' : ∀ nt ∈ sub'.allNotes, hasSuffix nt.name x = true :=
          traverseChildren_suffix x o cs _ sub' hsub hsubInv
        intro nt hnt
        simp only [Entry.allNotes_mk, List.mem_append] at hnt
        rcases hnt with hnt | hnt
        · exact he nt (by simp [hnt])
        · rcases mem_allNotesSubs_setTopic (ensureTopic st name) name sub' nt hnt
            with h' | h'
          · -- a note of the ensured map: also a note of `st`
            have : nt ∈ allNotesSubs st := by
              revert h'
              unfold ensureTopic
              cases hl : lookupTopic st name with
              | none =>
                rw [setTopic_of_lookup_none st name blankEntry hl,
                  allNotesSubs_append]
                simp [allNotesSubs, blankEntry, Entry.allNotes]
              | some v => exact fun h' => h'
            exact he nt (by simp [this])
          · exact hsub' nt h'

theorem traverseChildren_suffix (x : String) (o : Option Nat) :
    ∀ (cs : List FSNode) (e e' : Entry),
      traverseChildren x o cs e = some e' →
      (∀ nt ∈ e.allNotes, hasSuffix nt.name x = true) →
      ∀ nt ∈ e'.allNotes, hasSuffix nt.name x = true
  | [], e, e', h, he => by
    simp only [traverseChildren, Option.some.injEq] at h
    subst h
    exact he
  | child :: rest, e, e', h, he => by
    cases hn : traverseNode x o child e with
    | none => simp [traverseChildren, hn] at h
    | some e₁ =>
      simp only [traverseChildren, hn] at h
      exact traverseChildren_suffix x o rest e₁ e' h
        (traverseNode_suffix x o child e e₁ hn he)

end

/-! ## The note set the traversal builds

Traversal adds to the accumulated entry exactly the eligible files of
the traversed tree, counted as a multiset of link targets. -/

mutual

theorem traverseNode_collect (x : String) (o : Option Nat) :
    ∀ (n : FSNode) (e e' : Entry) (pre : String),
      traverseNode x o n e = some e' →
      (↑(e'.collect pre) : Multiset String) =
        ↑(e.collect pre) + ↑(specNotesNode x o pre n)
  | .file name ident mtime, .mk ns st, e', pre, h => by
    by_cases hc : (hasSuffix name x && !sameFile o ident) = true
    · simp only [traverseNode, Entry.notes_mk, Entry.subTopics_mk, if_pos hc,
        Option.some.injEq] at h
      subst h
      simp only [collect_mk, List.map_append, List.map_cons, List.map_nil,
        specNotesNode, hc, if_pos, ← Multiset.coe_add]
      abel
    · simp only [traverseNode, Entry.notes_mk, Entry.subTopics_mk, if_neg hc,
        Option.some.injEq] at h
      subst h
      simp only [Bool.not_eq_true] at hc
      simp [specNotesNode, hc]
  | .dir name r cs, .mk ns st, e', pre, h => by
    by_cases hh : hasPre name "." = true
    · simp only [traverseNode, if_pos hh, Option.some.injEq] at h
      subst h
      simp [specNotesNode, hh]
    · cases r with
      | false => simp [traverseNode, hh] at h
      | true =>
        simp only [traverseNode, if_neg hh, if_true, Entry.notes_mk,
          Entry.subTopics_mk] at h
        obtain ⟨sub', hsub, rfl⟩ := Option.map_eq_some'.mp h
        have hlook := lookupTopic_ensureTopic st name
        have ih := traverseChildren_collect x o cs
          ((lookupTopic (ensureTopic st name) name).getD blankEntry) sub'
          (goJoin pre name) hsub
        rw [hlook] at ih
        simp only [Option.getD_some] at ih
        have hset := collectSubs_setTopic_of_lookup pre (ensureTopic st name) name
          ((lookupTopic st name).getD blankEntry) sub' hlook
        -- collectSubs over the ensured map has the same contents as over `st`
        have hens : (↑(collectSubs pre (ensureTopic st name)) : Multiset String) =
            ↑(collectSubs pre st) := by
          unfold ensureTopic
          cases hl : lookupTopic st name with
          | none =>
            rw [setTopic_of_lookup_none st name blankEntry hl,
              collectSubs_append]
            simp [collectSubs]
          | some v => rfl
        have hone : (↑(collectSubs pre (setTopic (ensureTopic st name) name sub')) :
            Multiset String) =
            ↑(collectSubs pre st) + ↑(specNotesList x o (goJoin pre name) cs) := by
          have := hset
          rw [ih] at this
          have hres : (↑(collectSubs pre (setTopic (ensureTopic st name) name sub')) :
              Multiset String) =
              ↑(collectSubs pre (ensureTopic st name)) +
                ↑(specNotesList x o (goJoin pre name) cs) := by
            have h2 := this
            rw [show (↑(collectSubs pre (ensureTopic st name)) : Multiset String) +
                (↑(((lookupTopic st name).getD blankEntry).collect (goJoin pre name)) +
                  ↑(specNotesList x o (goJoin pre name) cs)) =
                (↑(collectSubs pre (ensureTopic st name)) +
                  ↑(specNotesList x o (goJoin pre name) cs)) +
                  ↑(((lookupTopic st name).getD blankEntry).collect (goJoin pre name))
              from by abel] at h2
            exact add_right_cancel (h2.trans rfl)
          rw [hres, hens]
        simp only [collect_mk, specNotesNode, if_neg hh, ← Multiset.coe_add, hone]
        abel

theorem traverseChildren_collect (x : String) (o : Option Nat) :
    ∀ (cs : List FSNode) (e e' : Entry) (pre : String),
      traverseChildren x o cs e = some e' →
      (↑(e'.collect pre) : Multiset String) =
        ↑(e.collect pre) + ↑(specNotesList x o pre cs)
  | [], e, e', pre, h => by
    simp only [traverseChildren, Option.some.injEq] at h
    subst h
    simp [specNotesList]
  | child :: rest, e, e', pre, h => by
    cases hn : traverseNode x o child e with
    | none => simp [traverseChildren, hn] at h
    | some e₁ =>
      simp only [traverseChildren, hn] at h
      have ih1 := traverseNode_collect x o child e e₁ pre hn
      have ih2 := traverseChildren_collect x o rest e₁ e' pre h
      rw [ih2, ih1]
      simp only [specNotesList, ← Multiset.coe_add]
      abel

end

/-! ## Which sub-topics exist does not depend on the output-file info -/

theorem setTopic_map_fst :
    ∀ (subs : List (String × Entry)) (k : String) (v : Entry),
      (setTopic subs k v).map Prod.fst =
        if (lookupTopic subs k).isSome then subs.map Prod.fst
        else subs.map Prod.fst ++ [k]
  | [], k, v => by simp [setTopic, lookupTopic]
  | (k', e) :: rest, k, v => by
    by_cases hkk : k' = k
    · subst hkk
      simp [setTopic, lookupTopic]
    · simp only [setTopic, if_neg hkk, List.map_cons, lookupTopic,
        setTopic_map_fst rest k v]
      by_cases hl : (lookupTopic rest k).isSome <;> simp [hl, hkk]

theorem ensureTopic_map_fst (subs : List (String × Entry)) (k : String) :
    (ensureTopic subs k).map Prod.fst =
      if (lookupTopic subs k).isSome then subs.map Prod.fst
      else subs.map Prod.fst ++ [k] := by
  unfold ensureTopic
  cases hl : lookupTopic subs k with
  | none => simp [setTopic_map_fst, hl]
  | some v => simp [hl]

theorem lookup_isSome_congr :
    ∀ (s₁ s₂ : List (String × Entry)) (k : String),
      s₁.map Prod.fst = s₂.map Prod.fst →
      (lookupTopic s₁ k).isSome = (lookupTopic s₂ k).isSome
  | [], [], _, _ => rfl
  | [], (_, _) :: _, _, h => by simp at h
  | (_, _) :: _, [], _, h => by simp at h
  | (k₁, e₁) :: r₁, (k₂, e₂) :: r₂, k, h => by
    simp only [List.map_cons, List.cons.injEq] at h
    obtain ⟨hk, hr⟩ := h
    subst hk
    by_cases hkk : k₁ = k
    · simp [lookupTopic, hkk]
    · simp only [lookupTopic, if_neg hkk]
      exact lookup_isSome_congr r₁ r₂ k hr

theorem traverseNode_keys (x : String) (o o' : Option Nat) :
    ∀ (n : FSNode) (e f e₂ f₂ : Entry),
      e.topicKeys = f.topicKeys →
      traverseNode x o n e = some e₂ → traverseNode x o' n f = some f₂ →
      e₂.topicKeys = f₂.topicKeys
  | .file name ident mtime, .mk ns st, .mk ms ts, e₂, f₂, hk, he, hf => by
    have h₂ : e₂.subTopics = st := by
      by_cases hc : (hasSuffix name x && !sameFile o ident) = true
      · simp only [traverseNode, Entry.notes_mk, Entry.subTopics_mk, if_pos hc,
          Option.some.injEq] at he
        subst he
        rfl
      · simp only [traverseNode, if_neg hc, Option.some.injEq] at he
        subst he
        rfl
    have h₃ : f₂.subTopics = ts := by
      by_cases hc : (hasSuffix name x && !sameFile o' ident) = true
      · simp only [traverseNode, Entry.notes_mk, Entry.subTopics_mk, if_pos hc,
          Option.some.injEq] at hf
        subst hf
        rfl
      · simp only [traverseNode, if_neg hc, Option.some.injEq] at hf
        subst hf
        rfl
    simpa [Entry.topicKeys, h₂, h₃] using hk
  | .dir name r cs, .mk ns st, .mk ms ts, e₂, f₂, hk, he, hf => by
    by_cases hh : hasPre name "." = true
    · simp only [traverseNode, if_pos hh, Option.some.injEq] at he hf
      subst he
      subst hf
      exact hk
    · cases r with
      | false => simp [traverseNode, hh] at he
      | true =>
        simp only [traverseNode, if_neg hh, if_true, Entry.notes_mk,
          Entry.subTopics_mk] at he hf
        obtain ⟨sube, _, rfl⟩ := Option.map_eq_some'.mp he
        obtain ⟨subf, _, rfl⟩ := Option.map_eq_some'.mp hf
        simp only [Entry.topicKeys, Entry.subTopics_mk] at hk ⊢
        rw [setTopic_map_fst, setTopic_map_fst,
          lookupTopic_ensureTopic st name, lookupTopic_ensureTopic ts name]
        simp only [Option.isSome_some, if_true, ensureTopic_map_fst, hk,
          lookup_isSome_congr st ts name hk]

theorem traverseChildren_keys (x : String) (o o' : Option Nat) :
    ∀ (cs : List FSNode) (e f e' f' : Entry),
      e.topicKeys = f.topicKeys →
      traverseChildren x o cs e = some e' → traverseChildren x o' cs f = some f' →
      e'.topicKeys = f'.topicKeys
  | [], e, f, e', f', hk, he, hf => by
    simp only [traverseChildren, Option.some.injEq] at he hf
    subst he
    subst hf
    exact hk
  | child :: rest, e, f, e', f', hk, he, hf => by
    cases hne : traverseNode x o child e with
    | none => simp [traverseChildren, hne] at he
    | some e₁ =>
      cases hnf : traverseNode x o' child f with
      | none => simp [traverseChildren, hnf] at hf
      | some f₁ =>
        simp only [traverseChildren, hne] at he
        simp only [traverseChildren, hnf] at hf
        exact traverseChildren_keys x o o' rest e₁ f₁ e' f'
          (traverseNode_keys x o o' child e f e₁ f₁ hk hne hnf) he hf

/-! ## With no output-file info nothing is excluded -/

mutual

theorem specNotesNode_none :
    ∀ (x pre : String) (n : FSNode), specNotesNode x none pre n = specAllNode x pre n
  | x, pre, .file name ident mtime => by
    simp [specNotesNode, specAllNode, sameFile]
  | x, pre, .dir name r cs => by
    by_cases hh : hasPre name "." = true <;>
      simp [specNotesNode, specAllNode, hh,
        specNotesList_none x (goJoin pre name) cs]

theorem specNotesList_none :
    ∀ (x pre : String) (ns : List FSNode), specNotesList x none pre ns = specAllList x pre ns
  | _, _, [] => rfl
  | x, pre, n :: rest => by
    simp [specNotesList, specAllList, specNotesNode_none x pre n,
      specNotesList_none x pre rest]

end

/-! ## Suffix stripping is exact on names that pass the suffix filter -/

theorem stripExt_append_of_hasSuffix (s ext : String) (h : hasSuffix s ext = true) :
    stripExt s ext ++ ext = s ∧ ext.data.length ≤ s.data.length := by
  unfold hasSuffix at h
  rw [List.isSuffixOf_iff_suffix] at h
  obtain ⟨pre, hpre⟩ := h
  have hlen : ext.data.length ≤ s.data.length := by
    rw [← hpre]
    simp
  refine ⟨?_, hlen⟩
  apply String.ext
  rw [String.data_append]
  unfold stripExt
  show (s.data.take (s.data.length - ext.data.length)) ++ ext.data = s.data
  rw [← hpre]
  have : (pre ++ ext.data).length - ext.data.length = pre.length := by
    simp
  rw [this, List.take_left]

/-! ## Render-time sorting of the notes -/

/-- Strict ordering of notes by name; antisymmetric for trivial reasons
(two names cannot each be smaller than the other). -/
def nameLt (a b : Note) : Prop :=
  strLtB a.name.data b.name.data = true

instance : IsAntisymm Note nameLt :=
  ⟨fun _ _ h h' => (strLtB_asymm _ _ h h').elim⟩

theorem sortNotes_sorted (l : List Note) : List.Sorted noteLe (sortNotes l) :=
  List.sorted_insertionSort noteLe l

theorem sortNotes_perm (l : List Note) : List.Perm (sortNotes l) l :=
  List.perm_insertionSort noteLe l

theorem nameLt_of_le_of_ne {a b : Note} (hle : noteLe a b) (hne : a.name ≠ b.name) :
    nameLt a b := by
  unfold noteLe strLeB at hle
  rw [Bool.not_eq_true'] at hle
  unfold nameLt
  by_contra hab
  rw [Bool.not_eq_true] at hab
  exact hne (congrArg String.mk (strLtB_eq_of_not _ _ hab hle) |>.trans
    (by cases b.name; rfl) |>.symm.trans (by cases a.name; rfl) |>.symm)

theorem sortNotes_sorted_nameLt (l : List Note) (hnd : (l.map Note.name).Nodup) :
    List.Sorted nameLt (sortNotes l) := by
  have hs : List.Sorted noteLe (sortNotes l) := sortNotes_sorted l
  have hnd' : ((sortNotes l).map Note.name).Nodup :=
    (((sortNotes_perm l).map Note.name).nodup_iff).mpr hnd
  rw [List.Nodup, List.pairwise_map] at hnd'
  exact (hs.and hnd').imp (fun h => nameLt_of_le_of_ne h.1 h.2)

/-- Two permuted note lists with no duplicate names have the same
sorted order: the render order does not depend on discovery order. -/
theorem sortNotes_eq_of_perm (l₁ l₂ : List Note) (hp : List.Perm l₁ l₂)
    (hnd : (l₁.map Note.name).Nodup) : sortNotes l₁ = sortNotes l₂ := by
  have hnd₂ : (l₂.map Note.name).Nodup := ((hp.map Note.name).nodup_iff).mp hnd
  have hperm : List.Perm (sortNotes l₁) (sortNotes l₂) :=
    ((sortNotes_perm l₁).trans hp).trans (sortNotes_perm l₂).symm
  exact List.eq_of_perm_of_sorted hperm
    (sortNotes_sorted_nameLt l₁ hnd) (sortNotes_sorted_nameLt l₂ hnd₂)

/-! ## The state the renderer leaves behind -/

mutual

theorem dump_snd : ∀ (e : Entry) (path : String) (indent : Nat) (fileExt : String),
    (Entry.dump e path indent fileExt).2 = e.deepSortNotes
  | .mk notes subs, path, indent, fileExt => by
    simp only [Entry.dump, Entry.deepSortNotes]
    rw [dumpSubs_snd subs path indent fileExt]

theorem dumpSubs_snd : ∀ (subs : List (String × Entry)) (path : String) (indent : Nat)
    (fileExt : String),
    (dumpSubs subs path indent fileExt).map (fun kr => (kr.1, kr.2.2)) =
      deepSortNotesSubs subs
  | [], _, _, _ => rfl
  | (k, sub) :: rest, path, indent, fileExt => by
    simp only [dumpSubs, List.map_cons, deepSortNotesSubs,
      dump_snd sub (goJoin path k) (indent + 1) fileExt,
      dumpSubs_snd rest path indent fileExt]

end

mutual

theorem deepSort_collect_perm : ∀ (e : Entry) (pre : String),
    List.Perm ((e.deepSortNotes).collect pre) (e.collect pre)
  | .mk notes subs, pre => by
    simp only [Entry.deepSortNotes, collect_mk]
    exact List.Perm.append ((sortNotes_perm notes).map _)
      (deepSortSubs_collect_perm subs pre)

theorem deepSortSubs_collect_perm : ∀ (subs : List (String × Entry)) (pre : String),
    List.Perm (collectSubs pre (deepSortNotesSubs subs)) (collectSubs pre subs)
  | [], _ => .refl _
  | (k, e) :: rest, pre => by
    simp only [deepSortNotesSubs, collectSubs]
    exact List.Perm.append (deepSort_collect_perm e (goJoin pre k))
      (deepSortSubs_collect_perm rest pre)

end

theorem deepSortNotesSubs_map_fst :
    ∀ subs : List (String × Entry),
      (deepSortNotesSubs subs).map Prod.fst = subs.map Prod.fst
  | [] => rfl
  | (k, e) :: rest => by
    simp [deepSortNotesSubs, deepSortNotesSubs_map_fst rest]

theorem deepSortNotes_topicKeys (e : Entry) :
    (e.deepSortNotes).topicKeys = e.topicKeys := by
  cases e with
  | mk notes subs => simp [Entry.deepSortNotes, Entry.topicKeys, deepSortNotesSubs_map_fst]

theorem deepSortNotes_notes (e : Entry) :
    (e.deepSortNotes).notes = sortNotes e.notes := by
  cases e with
  | mk notes subs => simp [Entry.deepSortNotes]

/-! ## The rendered text, one level at a time -/

theorem dumpSubs_eq_map :
    ∀ (subs : List (String × Entry)) (path : String) (indent : Nat) (fileExt : String),
      dumpSubs subs path indent fileExt =
        subs.map (fun ks => (ks.1, Entry.dump ks.2 (goJoin path ks.1) (indent + 1) fileExt))
  | [], _, _, _ => rfl
  | (k, sub) :: rest, path, indent, fileExt => by
    simp [dumpSubs, dumpSubs_eq_map rest path indent fileExt]

/-- The sub-topic part of the rendered text is exactly the Go loop at
src/code.go:78-94: the key-sorted `(key, child)` pairs, each rendered as
a heading line followed by the child's recursive dump. -/
theorem dump_subText_eq (subs : List (String × Entry)) (path : String) (indent : Nat)
    (fileExt : String) :
    (dumpSubs subs path indent fileExt).insertionSort fstLe =
      (sortTopicPairs subs).map
        (fun ks => (ks.1, Entry.dump ks.2 (goJoin path ks.1) (indent + 1) fileExt)) := by
  rw [dumpSubs_eq_map]
  exact (List.map_insertionSort fstLe fstLe
    (fun ks => (ks.1, Entry.dump ks.2 (goJoin path ks.1) (indent + 1) fileExt)) subs
    (fun a _ b _ => Iff.rfl)).symm

/-- The rendered text of one entry: the sorted note lines, then for each
sub-topic in key order a blank line, the heading (`indent` spaces,
`indent` `'#'` marks, a space, the topic name), and the sub-topic's own
dump with the extended path prefix and `indent + 1`. -/
theorem dump_fst_eq (notes : List Note) (subs : List (String × Entry)) (path : String)
    (indent : Nat) (fileExt : String) :
    (Entry.dump (.mk notes subs) path indent fileExt).1 =
      String.join ((sortNotes notes).map (noteLine (strRepeat indent ' ') path fileExt)) ++
      String.join ((sortTopicPairs subs).map (fun ks =>
        "\n" ++ strRepeat indent ' ' ++ strRepeat indent '#' ++ " " ++ ks.1 ++ "\n" ++
          (Entry.dump ks.2 (goJoin path ks.1) (indent + 1) fileExt).1)) := by
  simp only [Entry.dump, dump_subText_eq, List.map_map]
  rfl

/-! ## Date formatting facts -/

theorem padNat_length (w n : Nat) (hw : 0 < w) (h : n < 10 ^ w) :
    (padNat w n).length = w := by
  have hl := Nat.repr_length n w hw h
  unfold padNat
  show (String.mk (List.replicate (w - (Nat.repr n).length) '0') ++ Nat.repr n).data.length = w
  rw [String.data_append]
  simp only [List.length_append, List.length_replicate]
  have : (Nat.repr n).data.length = (Nat.repr n).length := rfl
  omega

theorem monthAbbr_length : ∀ m : Fin 12, (monthAbbr m).length = 3 := by decide

/-! ## Concrete scenario trees used by the witnesses -/

/-- A root listing with: an eligible note, a sub-topic holding an
eligible note and a same-named-but-distinct `README.md`, a hidden
directory holding a would-be note, the output file itself (identity 10),
and a file that fails the suffix filter. -/
def c1fs : List FSNode :=
  [.file "a.md" 1 ⟨2, 0, 2006⟩,
   .dir "topics" true [.file "b.md" 2 ⟨3, 1, 2007⟩, .file "README.md" 7 ⟨9, 4, 2012⟩],
   .dir ".git" true [.file "c.md" 3 ⟨4, 2, 2008⟩],
   .file "README.md" 10 ⟨5, 3, 2009⟩,
   .file "notes.txt" 4 ⟨6, 5, 2010⟩]

/-- The tree `traverseDir` builds from `c1fs` with output identity 10. -/
def c1entry : Entry :=
  .mk [⟨"a.md", ⟨2, 0, 2006⟩⟩]
    [("topics", .mk [⟨"b.md", ⟨3, 1, 2007⟩⟩, ⟨"README.md", ⟨9, 4, 2012⟩⟩] [])]

/-- A note three directory levels deep: `root/a/b/note.md`. -/
def c5fs : List FSNode :=
  [.dir "a" true [.dir "b" true [.file "note.md" 5 ⟨2, 0, 2006⟩]]]

/-- The tree `traverseDir` builds from `c5fs`. -/
def c5entry : Entry :=
  .mk [] [("a", .mk [] [("b", .mk [⟨"note.md", ⟨2, 0, 2006⟩⟩] [])])]

/-- A root listing holding the output-file name among eligible notes,
scanned when `os.Stat` of the output file failed (`outInfo = none`). -/
def c10fs : List FSNode :=
  [.file "README.md" 10 ⟨5, 3, 2009⟩, .file "a.md" 1 ⟨2, 0, 2006⟩]

/-! ## The claims -/

/-- C1: for every directory tree on which the traversal succeeds, the
notes of the built tree — which the renderer emits one line each, in
the order given by `dump_fst_eq` — are, as a multiset of link targets,
exactly the regular files under the root whose names end with the
suffix filter, excluding everything inside hidden (dot-prefixed)
directories at any depth and excluding the file identical to the
designated output file; moreover no hidden directory name occurs as a
sub-topic key anywhere in the tree, hence never as a heading. -/
theorem c1_note_set (fileExt : String) (outInfo : Option Nat) (readable : Bool)
    (children : List FSNode) (entry : Entry)
    (h : traverseDir fileExt outInfo readable children = some entry) :
    List.Perm (entry.collect "") (specNotesList fileExt outInfo "" children) ∧
      entry.hiddenFree = true := by
  have hr : readable = true := by
    cases readable
    · simp [traverseDir] at h
    · rfl
  subst hr
  simp only [traverseDir, if_true] at h
  constructor
  · have := traverseChildren_collect fileExt outInfo children blankEntry entry "" h
    rw [← Multiset.coe_eq_coe]
    simpa [blankEntry, Entry.collect, collectSubs] using this
  · exact traverseChildren_hiddenFree fileExt outInfo children blankEntry entry h rfl

/-- C1 witness: the scenario tree `c1fs` with output identity 10. -/
theorem c1_note_set_witness :
    List.Perm (c1entry.collect "") (specNotesList ".md" (some 10) "" c1fs) ∧
      c1entry.hiddenFree = true :=
  c1_note_set ".md" (some 10) true c1fs c1entry rfl

/-- C2: the output-file exclusion is identity-based and local.  At any
one directory level the notes the traversal adds are exactly the listed
regular files passing the suffix filter whose resolved identity differs
from the output file's (`eligibleNote` keeps a same-named file with a
different identity and keeps all siblings), and which sub-topics exist
is independent of the output-file identity. -/
theorem c2_exclusion_identity_based :
    (∀ (fileExt : String) (outInfo : Option Nat) (cs : List FSNode) (e e' : Entry),
      traverseChildren fileExt outInfo cs e = some e' →
      e'.notes = e.notes ++ cs.filterMap (eligibleNote fileExt outInfo)) ∧
    (∀ (fileExt : String) (o o' : Option Nat) (cs : List FSNode) (e e' f' : Entry),
      traverseChildren fileExt o cs e = some e' →
      traverseChildren fileExt o' cs e = some f' →
      e'.topicKeys = f'.topicKeys) :=
  ⟨fun fileExt outInfo cs e e' h => traverseChildren_notes fileExt outInfo cs e e' h,
   fun fileExt o o' cs e e' f' he hf =>
     traverseChildren_keys fileExt o o' cs e e e' f' rfl he hf⟩

/-- C2 witness: on `c1fs` the root `README.md` (identity 10, the output
file) yields no note while `topics/README.md` (identity 7) does, and the
sub-topic keys are what they are with exclusion identity 10 and with
none. -/
theorem c2_exclusion_identity_based_witness :
    c1entry.notes = blankEntry.notes ++ c1fs.filterMap (eligibleNote ".md" (some 10)) ∧
      c1entry.topicKeys =
        (Entry.mk [⟨"a.md", ⟨2, 0, 2006⟩⟩, ⟨"README.md", ⟨5, 3, 2009⟩⟩]
          [("topics", .mk [⟨"b.md", ⟨3, 1, 2007⟩⟩, ⟨"README.md", ⟨9, 4, 2012⟩⟩] [])]).topicKeys :=
  ⟨c2_exclusion_identity_based.1 ".md" (some 10) c1fs blankEntry c1entry rfl,
   c2_exclusion_identity_based.2 ".md" (some 10) none c1fs blankEntry c1entry _ rfl rfl⟩

/-- C3: within one topic the renderer emits the notes in ascending
lexicographic (byte-wise) order of their full filenames — `dump_fst_eq`
shows the emission order is `sortNotes` — and, provided the filenames
are distinct (as directory entries are), the rendered text does not
depend on the order in which the notes were discovered during the
build. -/
theorem c3_note_order (notes₁ notes₂ : List Note) (subs : List (String × Entry))
    (path : String) (indent : Nat) (fileExt : String)
    (hp : List.Perm notes₁ notes₂) (hnd : (notes₁.map Note.name).Nodup) :
    (Entry.dump (.mk notes₁ subs) path indent fileExt).1 =
      (Entry.dump (.mk notes₂ subs) path indent fileExt).1 ∧
    List.Pairwise (fun a b : Note => strLeB a.name.data b.name.data = true)
      (sortNotes notes₁) := by
  constructor
  · rw [dump_fst_eq, dump_fst_eq, sortNotes_eq_of_perm notes₁ notes₂ hp hnd]
  · exact sortNotes_sorted notes₁

/-- C3 witness: two discovery orders of the same two notes render
identically, and the render order is sorted. -/
theorem c3_note_order_witness :
    (Entry.dump (.mk [⟨"b.md", ⟨3, 1, 2007⟩⟩, ⟨"a.md", ⟨2, 0, 2006⟩⟩] []) "" 2 ".md").1 =
      (Entry.dump (.mk [⟨"a.md", ⟨2, 0, 2006⟩⟩, ⟨"b.md", ⟨3, 1, 2007⟩⟩] []) "" 2 ".md").1 ∧
    List.Pairwise (fun a b : Note => strLeB a.name.data b.name.data = true)
      (sortNotes [⟨"b.md", ⟨3, 1, 2007⟩⟩, ⟨"a.md", ⟨2, 0, 2006⟩⟩]) :=
  c3_note_order [⟨"b.md", ⟨3, 1, 2007⟩⟩, ⟨"a.md", ⟨2, 0, 2006⟩⟩]
    [⟨"a.md", ⟨2, 0, 2006⟩⟩, ⟨"b.md", ⟨3, 1, 2007⟩⟩] [] "" 2 ".md"
    (by decide) (by decide)

/-- C4: sibling sub-topics are emitted in ascending lexicographic key
order; each sub-topic contributes a blank line and a heading made of
`indent` spaces, `indent` copies of `'#'`, a space and the topic name,
then its own dump at `indent + 1`; the top-level dump starts at depth
2. -/
theorem c4_subtopic_order (notes : List Note) (subs : List (String × Entry))
    (path : String) (indent : Nat) (fileExt : String) :
    List.Pairwise (fstLe (β := Entry)) (sortTopicPairs subs) ∧
    (Entry.dump (.mk notes subs) path indent fileExt).1 =
      String.join ((sortNotes notes).map (noteLine (strRepeat indent ' ') path fileExt)) ++
      String.join ((sortTopicPairs subs).map (fun ks =>
        "\n" ++ strRepeat indent ' ' ++ strRepeat indent '#' ++ " " ++ ks.1 ++ "\n" ++
          (Entry.dump ks.2 (goJoin path ks.1) (indent + 1) fileExt).1)) ∧
    (strRepeat indent '#').data = List.replicate indent '#' ∧
    (strRepeat indent ' ').data = List.replicate indent ' ' ∧
    (Entry.Dump (.mk notes subs) fileExt).1 =
      "# Notes\n" ++ (Entry.dump (.mk notes subs) "" 2 fileExt).1 :=
  ⟨List.sorted_insertionSort fstLe subs,
   dump_fst_eq notes subs path indent fileExt, rfl, rfl, rfl⟩

/-- C5: a link target is the accumulated prefix joined to the raw
filename with a single `/`, omitted for the empty prefix; in particular
`root/a/b/note.md` renders with target `a/b/note.md` — no leading,
trailing or doubled separator. -/
theorem c5_path_join :
    (∀ name : String, goJoin "" name = name) ∧
    (∀ path name : String, path ≠ "" → goJoin path name = path ++ "/" ++ name) ∧
    goJoin (goJoin (goJoin "" "a") "b") "note.md" = "a/b/note.md" ∧
    traverseDir ".md" (some 99) true c5fs = some c5entry ∧
    (c5entry.Dump ".md").1 =
      "# Notes\n\n  ## a\n\n   ### b\n    - [note](a/b/note.md) [02 Jan 2006]\n" :=
  ⟨fun _ => rfl,
   fun path name h => by simp [goJoin, h],
   by decide, rfl, by decide⟩

/-- C5 witness: the non-empty-prefix join at a concrete input. -/
theorem c5_path_join_witness : goJoin "a/b" "note.md" = "a/b" ++ "/" ++ "note.md" :=
  c5_path_join.2.1 "a/b" "note.md" (by decide)

/-- C6: the notes of an entry render as exactly one list line each, of
the form `<indent>- [<display name>](<link target>) [<formatted date>]`
with `indent` many spaces, the display name the filename with the
suffix stripped, and the date formatted as zero-padded two-digit day,
three-letter month abbreviation and four-digit year. -/
theorem c6_note_line (notes : List Note) (subs : List (String × Entry)) (path : String)
    (indent : Nat) (fileExt : String) (d : Date)
    (hd : d.day < 100) (hy : d.year < 10000) :
    (Entry.dump (.mk notes subs) path indent fileExt).1 =
      String.join ((sortNotes notes).map (fun nt =>
        strRepeat indent ' ' ++ "- [" ++ stripExt nt.name fileExt ++ "](" ++
          goJoin path nt.name ++ ") [" ++ formatDate nt.timestamp ++ "]" ++ "\n")) ++
      String.join ((sortTopicPairs subs).map (fun ks =>
        "\n" ++ strRepeat indent ' ' ++ strRepeat indent '#' ++ " " ++ ks.1 ++ "\n" ++
          (Entry.dump ks.2 (goJoin path ks.1) (indent + 1) fileExt).1)) ∧
    (strRepeat indent ' ').length = indent ∧
    formatDate d = padNat 2 d.day ++ " " ++ monthAbbr d.month ++ " " ++ padNat 4 d.year ∧
    (padNat 2 d.day).length = 2 ∧
    (monthAbbr d.month).length = 3 ∧
    (padNat 4 d.year).length = 4 := by
  refine ⟨?_, ?_, rfl, ?_, monthAbbr_length d.month, ?_⟩
  · exact dump_fst_eq notes subs path indent fileExt
  · show (List.replicate indent ' ').length = indent
    simp
  · exact padNat_length 2 d.day (by decide) (by simpa using hd)
  · exact padNat_length 4 d.year (by decide) (by simpa using hy)

/-- C6 witness: a concrete date inside the bounds. -/
theorem c6_note_line_witness :
    (Entry.dump (.mk [⟨"a.md", ⟨2, 0, 2006⟩⟩] []) "" 2 ".md").1 =
      String.join (((sortNotes [⟨"a.md", ⟨2, 0, 2006⟩⟩]).map (fun nt =>
        strRepeat 2 ' ' ++ "- [" ++ stripExt nt.name ".md" ++ "](" ++
          goJoin "" nt.name ++ ") [" ++ formatDate nt.timestamp ++ "]" ++ "\n"))) ++
      String.join (((sortTopicPairs []).map (fun ks =>
        "\n" ++ strRepeat 2 ' ' ++ strRepeat 2 '#' ++ " " ++ ks.1 ++ "\n" ++
          (Entry.dump ks.2 (goJoin "" ks.1) (2 + 1) ".md").1))) ∧
    (strRepeat 2 ' ').length = 2 ∧
    formatDate ⟨2, 0, 2006⟩ =
      padNat 2 (2 : Nat) ++ " " ++ monthAbbr 0 ++ " " ++ padNat 4 2006 ∧
    (padNat 2 (2 : Nat)).length = 2 ∧
    (monthAbbr 0).length = 3 ∧
    (padNat 4 2006).length = 4 :=
  c6_note_line [⟨"a.md", ⟨2, 0, 2006⟩⟩] [] "" 2 ".md" ⟨2, 0, 2006⟩
    (by decide) (by decide)

/-- C7: a directory listing failure anywhere the traversal reaches —
the root unreadable, or any non-hidden directory below it unreadable —
makes the whole build return `none` (the Go `panic`), and in that case
the output file keeps its prior content: the single write happens only
after a fully successful build and render. -/
theorem c7_fail_fast :
    (∀ (fileExt : String) (outInfo : Option Nat) (readable : Bool) (children : List FSNode),
      traverseDir fileExt outInfo readable children = none ↔
        (readable = false ∨ listingOk children = false)) ∧
    (∀ (fileExt : String) (outInfo : Option Nat) (readable : Bool) (children : List FSNode)
        (oldContent : String),
      traverseDir fileExt outInfo readable children = none →
      mainRun readable children fileExt outInfo oldContent = oldContent) := by
  constructor
  · intro fileExt outInfo readable children
    cases readable with
    | false => simp [traverseDir]
    | true =>
      simp only [traverseDir, if_true]
      have hs := traverseChildren_isSome fileExt outInfo children blankEntry
      constructor
      · intro h
        right
        rw [← hs, h]
        rfl
      · intro h
        rcases h with h | h
        · exact absurd h (by simp)
        · rw [h] at hs
          cases ht : traverseChildren fileExt outInfo children blankEntry with
          | none => rfl
          | some e =>
            rw [ht] at hs
            simp at hs
  · intro fileExt outInfo readable children oldContent h
    simp [mainRun, h]

/-- C7 witness: a tree whose only sub-directory is unreadable aborts the
run and leaves the prior output content in place. -/
theorem c7_fail_fast_witness :
    mainRun true [.dir "sub" false []] ".md" (some 10) "prior content" = "prior content" :=
  c7_fail_fast.2 ".md" (some 10) true [.dir "sub" false []] "prior content" rfl

/-- C8 counterexample: rendering an entry whose notes were discovered
out of order leaves the entry's notes re-ordered — the in-place
`sort.Stable` at src/code.go:52 persists through the slice's shared
backing array, so the built tree is not left unchanged. -/
theorem c8_render_mutates_notes :
    ((Entry.mk [⟨"b.md", ⟨3, 1, 2007⟩⟩, ⟨"a.md", ⟨2, 0, 2006⟩⟩] []).dump "" 2 ".md").2.notes ≠
      (Entry.mk [⟨"b.md", ⟨3, 1, 2007⟩⟩, ⟨"a.md", ⟨2, 0, 2006⟩⟩] []).notes := by
  decide

/-- C8 amended: rendering changes the built tree only by stably sorting
every entry's notes list in place; the multiset of notes at every node,
the notes themselves, and the sub-topic structure are all preserved —
nothing is added, removed or moved across nodes. -/
theorem c8_render_effect (e : Entry) (path : String) (indent : Nat) (fileExt : String) :
    (Entry.dump e path indent fileExt).2 = e.deepSortNotes ∧
    (∀ pre, List.Perm (((Entry.dump e path indent fileExt).2).collect pre) (e.collect pre)) ∧
    ((Entry.dump e path indent fileExt).2).topicKeys = e.topicKeys ∧
    ((Entry.dump e path indent fileExt).2).notes = sortNotes e.notes := by
  refine ⟨dump_snd e path indent fileExt, ?_, ?_, ?_⟩
  · intro pre
    rw [dump_snd e path indent fileExt]
    exact deepSort_collect_perm e pre
  · rw [dump_snd e path indent fileExt]
    exact deepSortNotes_topicKeys e
  · rw [dump_snd e path indent fileExt]
    exact deepSortNotes_notes e

/-- C9: every note stored by a successful traversal passes the suffix
filter, so the renderer's slice `name[:len(name)-len(ext)]` is in
bounds (`len(ext) ≤ len(name)`) and yields exactly the filename with
the suffix removed. -/
theorem c9_strip_safe (fileExt : String) (outInfo : Option Nat) (readable : Bool)
    (children : List FSNode) (entry : Entry)
    (h : traverseDir fileExt outInfo readable children = some entry) :
    ∀ nt ∈ entry.allNotes,
      hasSuffix nt.name fileExt = true ∧
      fileExt.data.length ≤ nt.name.data.length ∧
      stripExt nt.name fileExt ++ fileExt = nt.name := by
  have hr : readable = true := by
    cases readable
    · simp [traverseDir] at h
    · rfl
  subst hr
  simp only [traverseDir, if_true] at h
  intro nt hnt
  have hsuf : hasSuffix nt.name fileExt = true :=
    traverseChildren_suffix fileExt outInfo children blankEntry entry h
      (by simp [blankEntry, Entry.allNotes, allNotesSubs]) nt hnt
  obtain ⟨hstrip, hlen⟩ := stripExt_append_of_hasSuffix nt.name fileExt hsuf
  exact ⟨hsuf, hlen, hstrip⟩

/-- C9 witness: the note `topics/b.md` of the `c1fs` scenario. -/
theorem c9_strip_safe_witness :
    hasSuffix "b.md" ".md" = true ∧
      (".md" : String).data.length ≤ ("b.md" : String).data.length ∧
      stripExt "b.md" ".md" ++ ".md" = "b.md" :=
  c9_strip_safe ".md" (some 10) true c1fs c1entry rfl ⟨"b.md", ⟨3, 1, 2007⟩⟩ (by decide)

/-- C10: when `os.Stat` of the output path failed at startup the
exclusion identity is nil, `os.SameFile` is false for every file, and
nothing at all is excluded: the built tree holds every suffix-matching
file outside hidden directories, including any file named like the
output file. -/
theorem c10_no_stat_no_exclusion :
    (∀ ident : Nat, sameFile none ident = false) ∧
    (∀ (fileExt : String) (readable : Bool) (children : List FSNode) (entry : Entry),
      traverseDir fileExt none readable children = some entry →
      List.Perm (entry.collect "") (specAllList fileExt "" children)) := by
  refine ⟨fun _ => rfl, ?_⟩
  intro fileExt readable children entry h
  have hr : readable = true := by
    cases readable
    · simp [traverseDir] at h
    · rfl
  subst hr
  simp only [traverseDir, if_true] at h
  have := traverseChildren_collect fileExt none children blankEntry entry "" h
  rw [← specNotesList_none fileExt "" children, ← Multiset.coe_eq_coe]
  simpa [blankEntry, Entry.collect, collectSubs] using this

/-- C10 witness: with `outInfo = none` the root `README.md` is indexed
like any other note. -/
theorem c10_no_stat_no_exclusion_witness :
    sameFile none 10 = false ∧
      List.Perm
        ((Entry.mk [⟨"README.md", ⟨5, 3, 2009⟩⟩, ⟨"a.md", ⟨2, 0, 2006⟩⟩] []).collect "")
        (specAllList ".md" "" c10fs) :=
  ⟨c10_no_stat_no_exclusion.1 10,
   c10_no_stat_no_exclusion.2 ".md" true c10fs
     (.mk [⟨"README.md", ⟨5, 3, 2009⟩⟩, ⟨"a.md", ⟨2, 0, 2006⟩⟩] []) rfl⟩
